import Mathlib

/-!
Verification development for the syncless store (src/header.rs, src/record.rs,
src/store.rs): a single-file, append-only, checksummed byte store.

The embedding models the physical file as a list of byte values (`Nat`,
all values below 256 in any real file), the shared read/write position of the
opened file descriptor as an explicit `cursor` field, and the in-memory
`BTreeMap<u64, Span>` as a key-sorted association list.  Machine integers
(`u64`, `usize`, `u8`) are modelled as `Nat`; the little-endian encodings
keep the truncation to the encoded width explicit (`leBytes` takes values
mod 256 per byte).  The CRC64 function lives in an external crate, so every
definition is parametrised by an arbitrary `crc : List Nat -> Nat`; the code
only ever compares stored against recomputed values of the same function, and
`crcVal` truncates it to 64 bits exactly as `Digest::sum64` does.
-/

namespace Syncless

/-- Error enumeration from src/lib.rs; the payload of the I/O variant is
dropped (only the kind is observable in the claims). -/
inductive Error where
  | ioErr
  | notSyncless
  | unsupportedVersion
  | corruptRecord
deriving DecidableEq

/-- MAX_RECORD_SIZE from src/record.rs. -/
def MAX_RECORD_SIZE : Nat := 1 <<< 24

/-- RECORD_HDR_SIZE from src/record.rs. -/
def RECORD_HDR_SIZE : Nat := 8 + 3

/-- Span from src/store.rs. -/
structure Span where
  len : Nat
  file_data_offset : Nat
  validated : Bool
deriving DecidableEq

/-- The in-memory span map: a model of BTreeMap of u64 to Span as a key-sorted
association list. -/
abbrev Spans := List (Nat × Span)

/-- Insertion into the sorted association list; replaces the entry when the
key is already present, exactly as BTreeMap insert does. -/
def mapInsert (k : Nat) (v : Span) : Spans → Spans
  | [] => [(k, v)]
  | p :: rest =>
    if k < p.1 then (k, v) :: p :: rest
    else if k = p.1 then (k, v) :: rest
    else p :: mapInsert k v rest

/-- Lookup by key, as BTreeMap get. -/
def mapGet (spans : Spans) (k : Nat) : Option Span :=
  (spans.find? (fun p => decide (p.1 = k))).map Prod.snd

/-- Entries with key in the half-open interval from lo to hi, in ascending
key order: the model of BTreeMap range (Included lo, Excluded hi). -/
def rangeEntries (spans : Spans) (lo hi : Nat) : Spans :=
  spans.filter (fun p => decide (lo ≤ p.1) && decide (p.1 < hi))

/-- Last entry with key strictly below x: the model of
range (Included 0, Excluded x) followed by next_back, as used by both
split_span and prev_offset (keys are u64, hence all at least 0). -/
def prevEntry (spans : Spans) (x : Nat) : Option (Nat × Span) :=
  (spans.filter (fun p => decide (p.1 < x))).getLast?

/-- Little-endian encoding of n into k bytes (to_le_bytes, and the explicit
masked length-header bytes of write_record).  Truncation of a too-large n to
the encoded width is the explicit mod. -/
def leBytes : Nat → Nat → List Nat
  | 0, _ => []
  | k + 1, n => n % 256 :: leBytes k (n / 256)

/-- Little-endian decoding (from_le_bytes, and the shift-or decoding of the
3-byte length field, which agree on byte values below 256 — all values a
real file can hold). -/
def decodeLe : List Nat → Nat
  | [] => 0
  | b :: rest => b + 256 * decodeLe rest

/-- Digest::sum64 of the crc64fast crate truncated to u64; the crate is
external to the repository so the polynomial is an arbitrary parameter. -/
def crcVal (crc : List Nat → Nat) (bytes : List Nat) : Nat :=
  crc bytes % (2 ^ 64)

/-- Physical file contents: one entry per byte. -/
abbrev File := List Nat

/-- Read up to want bytes at pos: regular-file semantics of File::read,
which returns the available prefix at end of file. -/
def fileReadAvail (file : File) (pos want : Nat) : List Nat :=
  (file.drop pos).take want

/-- Positioned overwrite, the semantics of write_all at a given cursor on a
file opened read-write (no append flag): bytes land at the cursor, replacing
what was there and extending the file as needed (zero fill past the end). -/
def writeAt (file : File) (pos : Nat) (bytes : List Nat) : File :=
  file.take pos ++ List.replicate (pos - file.length) 0 ++ bytes
    ++ file.drop (pos + bytes.length)

/-- StoreBase plus the file-descriptor position: the shared seek cursor is
explicit because the code relies on it across calls. -/
structure MStore where
  file : File
  cursor : Nat
  spans : Spans
  file_size : Nat
  writable : Bool
deriving DecidableEq

/-- RecordHeader from src/record.rs. -/
structure RecordHeader where
  logical_offset : Nat
  length : Nat
deriving DecidableEq

/-- Record from src/record.rs. -/
structure Record where
  hdr : RecordHeader
  file_data_offset : Nat
deriving DecidableEq

/-- The debug_assert conditions of debug_check_spans, folded to a Bool
(helper; prev_end threads the end of the previous span). -/
def debugCheckGo : Option Nat → Spans → Bool
  | _, [] => true
  | prev_end, (off, span) :: rest =>
    decide (span.len > 0)
      && (match prev_end with
          | some pe => decide (off ≥ pe)
          | none => true)
      && debugCheckGo (some (off + span.len)) rest

/-- Model of debug_check_spans from src/record.rs: true exactly when none of
its debug_assert invocations would fire. -/
def debug_check_spans (spans : Spans) : Bool :=
  debugCheckGo none spans

/-- Model of read_bytes_fail_back from src/record.rs.  Returns the bytes
read, the new cursor, the new total_read, and whether the full want was
read.  On a short read it seeks back by total_read — but only when this
read call itself returned a nonzero byte count, exactly as the source's
if length != 0 guard does. -/
def read_bytes_fail_back (file : File) (cursor want total_read : Nat) :
    List Nat × Nat × Nat × Bool :=
  let bytes := fileReadAvail file cursor want
  let length := bytes.length
  let cursor' := cursor + length
  let total' := total_read + length
  if length = want then (bytes, cursor', total', true)
  else if length ≠ 0 then (bytes, cursor' - total', total', false)
  else (bytes, cursor', total', false)

/-- Model of read_next_record from src/record.rs: returns the parsed record
(or none at a torn/invalid/truncated tail), the new cursor, and the new
file_offset (advanced only on success). -/
def read_next_record (crc : List Nat → Nat) (file : File)
    (cursor file_offset : Nat) : Option Record × Nat × Nat :=
  let h := read_bytes_fail_back file cursor RECORD_HDR_SIZE 0
  let hdrbytes := h.1
  if !h.2.2.2 then (none, h.2.1, file_offset)
  else
    let rhdr : RecordHeader :=
      ⟨decodeLe (hdrbytes.take 8), decodeLe (hdrbytes.drop 8)⟩
    let r : Record := ⟨rhdr, file_offset + RECORD_HDR_SIZE⟩
    let d := read_bytes_fail_back file h.2.1 rhdr.length h.2.2.1
    if !d.2.2.2 then (none, d.2.1, file_offset)
    else
      let t := read_bytes_fail_back file d.2.1 8 d.2.2.1
      if !t.2.2.2 then (none, t.2.1, file_offset)
      else if crcVal crc (hdrbytes ++ d.1) ≠ decodeLe t.1 then
        (none, t.2.1 - t.2.2.1, file_offset)
      else
        (some r, t.2.1, file_offset + t.2.2.1)

/-- Model of validate from src/record.rs: seek to the frame start, read the
whole frame, recompute and compare the checksum.  Returns the outcome and
the new cursor; a short read_exact is the wrapped I/O error. -/
def validate (crc : List Nat → Nat) (file : File) (data_offset data_length : Nat) :
    Except Error (Bool × Nat) :=
  let pos := data_offset - RECORD_HDR_SIZE
  let n := RECORD_HDR_SIZE + data_length + 8
  if pos + n ≤ file.length then
    let bytes := (file.drop pos).take n
    .ok (decide (crcVal crc (bytes.take (RECORD_HDR_SIZE + data_length))
                  = decodeLe (bytes.drop (RECORD_HDR_SIZE + data_length))),
         pos + n)
  else
    .error .ioErr

/-- Model of write_record from src/record.rs: four sequential write_all
calls starting at the current cursor; returns the new file, the new cursor,
the data offset (computed from file_size, not from the cursor!), and the new
file_size. -/
def write_record (crc : List Nat → Nat) (file : File) (cursor : Nat)
    (logical_offset : Nat) (data : List Nat) (file_size : Nat) :
    File × Nat × Nat × Nat :=
  let offhdr := leBytes 8 logical_offset
  let lenhdr := leBytes 3 data.length
  let data_off := file_size + 8 + 3
  let tlr := leBytes 8 (crcVal crc (offhdr ++ lenhdr ++ data))
  let out := offhdr ++ lenhdr ++ data ++ tlr
  (writeAt file cursor out, cursor + out.length, data_off,
   data_off + data.length + 8)

/-- Model of split_span from src/record.rs.  The source asserts
span.validated before splitting; that assertion is checked separately by
splitAssertOk (the claim C7 machinery). -/
def split_span (spans : Spans) (logical_offset : Nat) : Spans :=
  match prevEntry spans logical_offset with
  | none => spans
  | some (offset, span) =>
    if logical_offset < offset + span.len then
      let before_len := logical_offset - offset
      let newspan : Span :=
        ⟨span.len - before_len, span.file_data_offset + before_len,
         span.validated⟩
      mapInsert offset ⟨before_len, span.file_data_offset, span.validated⟩
        (mapInsert logical_offset newspan spans)
    else spans

/-- Condition under which the assert in split_span does not fire: either no
previous span overlaps the split point, or the overlapped span is
validated. -/
def splitAssertOk (spans : Spans) (logical_offset : Nat) : Bool :=
  match prevEntry spans logical_offset with
  | none => true
  | some (offset, span) =>
    !decide (logical_offset < offset + span.len) || span.validated

/-- Model of add_record from src/record.rs: split at both ends, delete the
covered entries, insert the new span. -/
def add_record (spans : Spans) (logical_offset len file_data_offset : Nat)
    (validated : Bool) : Spans :=
  let spans1 := split_span spans logical_offset
  let spans2 := split_span spans1 (logical_offset + len)
  let spans3 := spans2.filter
    (fun p => !(decide (logical_offset ≤ p.1)
                && decide (p.1 < logical_offset + len)))
  mapInsert logical_offset ⟨len, file_data_offset, validated⟩ spans3

/-- Conjunction of the two split_span assertions performed by one add_record
call, in execution order. -/
def addRecordAssertOk (spans : Spans) (logical_offset len : Nat) : Bool :=
  splitAssertOk spans logical_offset
    && splitAssertOk (split_span spans logical_offset) (logical_offset + len)

/-- Magic from src/header.rs: the ASCII bytes of the word Syncless. -/
def MAGIC : List Nat := [0x53, 0x79, 0x6e, 0x63, 0x6c, 0x65, 0x73, 0x73]

/-- CURRENT_MAJOR from src/header.rs. -/
def CURRENT_MAJOR : Nat := 0

/-- CURRENT_FORMAT from src/header.rs. -/
def CURRENT_FORMAT : Nat := 0

/-- CURRENT_MINOR from src/header.rs. -/
def CURRENT_MINOR : Nat := 0

/-- HeaderVer from src/header.rs. -/
structure HeaderVer where
  major : Nat
  format : Nat
  minor : Nat
deriving DecidableEq

/-- is_read_compatible from src/header.rs. -/
def is_read_compatible (v : HeaderVer) : Bool :=
  decide (v.major ≤ CURRENT_MAJOR)

/-- is_write_compatible from src/header.rs. -/
def is_write_compatible (v : HeaderVer) : Bool :=
  is_read_compatible v && decide (v.format ≤ CURRENT_FORMAT)

/-- Model of read_header from src/header.rs: read exactly 12 bytes at the
cursor, check the magic, parse the version triple; a short read or a magic
mismatch is NotSyncless. -/
def read_header (file : File) (cursor file_offset : Nat) :
    Except Error (HeaderVer × Nat × Nat) :=
  if cursor + 12 ≤ file.length then
    let b := (file.drop cursor).take 12
    if b.take 8 = MAGIC then
      .ok (⟨b.getD 8 0, b.getD 9 0, decodeLe (b.drop 10)⟩,
           cursor + 12, file_offset + 12)
    else .error .notSyncless
  else .error .notSyncless

/-- The 12 bytes write_header emits. -/
def headerBytes : List Nat :=
  MAGIC ++ [CURRENT_MAJOR, CURRENT_FORMAT] ++ leBytes 2 CURRENT_MINOR

/-- Model of the replay loop of read_newfile: call read_next_record until it
yields none, inserting each record with validated = true.  The base's
file_size field doubles as the loop's file_offset, exactly as in the source.
Fuel bounds the iteration count; every successful record consumes at least
19 bytes of file, so file.length + 1 units of fuel always suffice. -/
def replayLoop (crc : List Nat → Nat) : Nat → MStore → MStore
  | 0, st => st
  | fuel + 1, st =>
    match read_next_record crc st.file st.cursor st.file_size with
    | (none, c, fo) => { st with cursor := c, file_size := fo }
    | (some r, c, fo) =>
      replayLoop crc fuel
        { st with
          cursor := c, file_size := fo,
          spans := add_record st.spans r.hdr.logical_offset r.hdr.length
                     r.file_data_offset true }

/-- Model of read_newfile from src/store.rs. -/
def read_newfile (crc : List Nat → Nat) (st : MStore)
    (compatible : HeaderVer → Bool) : MStore × Option Error :=
  match read_header st.file st.cursor st.file_size with
  | .error e => (st, some e)
  | .ok (hver, c, fo) =>
    if !compatible hver then
      ({ st with cursor := c, file_size := fo }, some .unsupportedVersion)
    else
      (replayLoop crc (st.file.length + 1)
        { st with cursor := c, file_size := fo }, none)

/-- Model of open_readonly from src/store.rs (given the already-opened file
contents; path plumbing is out of scope). -/
def open_readonly (crc : List Nat → Nat) (file : File) : Except Error MStore :=
  let base : MStore := ⟨file, 0, [], 0, false⟩
  match read_newfile crc base is_read_compatible with
  | (st, none) => .ok st
  | (_, some e) => .error e

/-- Model of open_writable_base plus open from src/store.rs: an empty file
gets the header written (and synced); otherwise the log is replayed with the
write-compatibility check. -/
def open_writable (crc : List Nat → Nat) (file : File) : Except Error MStore :=
  let base : MStore := ⟨file, 0, [], 0, true⟩
  if file.length = 0 then
    .ok { base with
          file := writeAt file 0 headerBytes,
          cursor := headerBytes.length, file_size := headerBytes.length }
  else
    match read_newfile crc base is_write_compatible with
    | (st, none) => .ok st
    | (_, some e) => .error e

/-- Model of Store::size from src/store.rs: last_key_value. -/
def spansSize (spans : Spans) : Nat :=
  match spans.getLast? with
  | none => 0
  | some (off, span) => off + span.len

/-- Store::size on the full store state. -/
def storeSize (st : MStore) : Nat := spansSize st.spans

/-- Model of Store::prev_offset from src/store.rs. -/
def prev_offset (spans : Spans) (offset : Nat) : Nat :=
  match prevEntry spans offset with
  | none => 0
  | some (off, _) => off

/-- Model of validate_record_with_retry from src/store.rs: validate, and on
failure sync (a no-op on the model state) and validate again.  Returns the
error, if any, and the new cursor. -/
def validate_record_with_retry (crc : List Nat → Nat) (file : File)
    (file_data_offset length : Nat) : Option Error × Nat :=
  match validate crc file file_data_offset length with
  | .error e => (some e, file.length)
  | .ok (true, c) => (none, c)
  | .ok (false, _) =>
    match validate crc file file_data_offset length with
    | .error e => (some e, file.length)
    | .ok (true, c) => (none, c)
    | .ok (false, c) => (some .corruptRecord, c)

/-- The validation loop of validate_range: validate each collected span in
key order, threading the cursor, stopping at the first error. -/
def runValidations (crc : List Nat → Nat) (file : File) :
    Nat → List (Nat × Nat × Nat) → Nat × Option Error
  | cursor, [] => (cursor, none)
  | cursor, (_, fdo, len) :: rest =>
    match validate_record_with_retry crc file fdo len with
    | (some e, c) => (c, some e)
    | (none, c) => runValidations crc file c rest

/-- Mark the spans with the listed keys validated: the second loop of
validate_range (get_mut followed by the flag store). -/
def flipValidated (spans : Spans) (keys : List Nat) : Spans :=
  spans.map (fun p =>
    if keys.contains p.1 then (p.1, { p.2 with validated := true }) else p)

/-- Model of Store::validate_range from src/store.rs: a no-op on read-only
stores; otherwise collect the unvalidated spans keyed in the range, validate
them all, and only then flip their flags. -/
def validate_range (crc : List Nat → Nat) (st : MStore) (start stop : Nat) :
    MStore × Option Error :=
  if !st.writable then (st, none)
  else
    let tv := ((rangeEntries st.spans start stop).filter
        (fun p => !p.2.validated)).map
      (fun p => (p.1, p.2.file_data_offset, p.2.len))
    match runValidations crc st.file st.cursor tv with
    | (c, some e) => ({ st with cursor := c }, some e)
    | (c, none) =>
      ({ st with
         cursor := c,
         spans := flipValidated st.spans (tv.map (fun t => t.1)) }, none)

/-- The span-iteration loop of Store::read, producing the bytes for the
remaining part of the buffer.  The source writes into a pre-zeroed buffer at
strictly advancing positions; the model emits the same bytes as a
concatenation: zeros for the gap before each span, the positioned read from
the span, then the rest, with trailing zeros once the entries run out. -/
def readLoop (file : File) (cursor offset buflen : Nat) :
    List (Nat × Span) → List Nat × Nat × Option Error
  | [] => (List.replicate buflen 0, cursor, none)
  | (off, span) :: rest =>
    let gap := off - offset
    let len := min span.len (buflen - gap)
    if span.file_data_offset + len ≤ file.length then
      let bytes := (file.drop span.file_data_offset).take len
      let r := readLoop file (span.file_data_offset + len) (off + len)
                 (buflen - gap - len) rest
      (List.replicate gap 0 ++ bytes ++ r.1, r.2.1, r.2.2)
    else
      (List.replicate gap 0, file.length, some .ioErr)

/-- Model of Store::read from src/store.rs: zero the buffer, validate the
range, serve the possibly-overlapping previous span, then iterate the spans
keyed inside the remaining range.  Returns the updated store and either the
bytes read or the error. -/
def storeRead (crc : List Nat → Nat) (st : MStore) (offset buflen : Nat) :
    MStore × Except Error (List Nat) :=
  let prev := prev_offset st.spans offset
  let v := validate_range crc st prev (offset + buflen)
  match v.2 with
  | some e => (v.1, .error e)
  | none =>
    let st1 := v.1
    match mapGet st1.spans prev with
    | some span =>
      if prev + span.len > offset then
        let bytes_before := offset - prev
        let len := min (span.len - bytes_before) buflen
        let pos := span.file_data_offset + bytes_before
        if pos + len ≤ st1.file.length then
          let head := (st1.file.drop pos).take len
          let r := readLoop st1.file (pos + len) (offset + len) (buflen - len)
                     (rangeEntries st1.spans (offset + len) (offset + buflen))
          match r.2.2 with
          | some e => ({ st1 with cursor := r.2.1 }, .error e)
          | none => ({ st1 with cursor := r.2.1 }, .ok (head ++ r.1))
        else ({ st1 with cursor := st1.file.length }, .error .ioErr)
      else
        let r := readLoop st1.file st1.cursor offset buflen
                   (rangeEntries st1.spans offset (offset + buflen))
        match r.2.2 with
        | some e => ({ st1 with cursor := r.2.1 }, .error e)
        | none => ({ st1 with cursor := r.2.1 }, .ok r.1)
    | none =>
      let r := readLoop st1.file st1.cursor offset buflen
                 (rangeEntries st1.spans offset (offset + buflen))
      match r.2.2 with
      | some e => ({ st1 with cursor := r.2.1 }, .error e)
      | none => ({ st1 with cursor := r.2.1 }, .ok r.1)

/-- The chunk taken by one iteration of the write loop of Store::write. -/
def chunkOf (buf : List Nat) : List Nat :=
  buf.take (min buf.length MAX_RECORD_SIZE)

/-- The chunking loop of Store::write: write_record then add_record with
validated = false, until the buffer is exhausted.  Fuel bounds the iteration
count; every chunk is nonempty so buf.length + 1 units always suffice. -/
def writeChunks (crc : List Nat → Nat) : Nat → MStore → Nat → List Nat → MStore
  | _, st, _, [] => st
  | 0, st, _, _ => st
  | fuel + 1, st, offset, buf =>
    let chunk := chunkOf buf
    let w := write_record crc st.file st.cursor offset chunk st.file_size
    writeChunks crc fuel
      { st with
        file := w.1, cursor := w.2.1, file_size := w.2.2.2,
        spans := add_record st.spans offset chunk.length w.2.2.1 false }
      (offset + chunk.length) (buf.drop chunk.length)

/-- Model of Store::write from src/store.rs. -/
def storeWrite (crc : List Nat → Nat) (st : MStore) (offset : Nat)
    (buf : List Nat) : MStore × Option Error :=
  let v := validate_range crc st (prev_offset st.spans offset)
             (offset + buf.length)
  match v.2 with
  | some e => (v.1, some e)
  | none => (writeChunks crc (buf.length + 1) v.1 offset buf, none)

/-- Model of Store::into_readonly from src/store.rs. -/
def into_readonly (crc : List Nat → Nat) (st : MStore) : MStore × Option Error :=
  let v := validate_range crc st 0 (storeSize st)
  match v.2 with
  | some e => (v.1, some e)
  | none => ({ v.1 with writable := false }, none)

/-- Instrumentation mirror of the chunking loop for claim C7: the same
recursion as writeChunks, returning the conjunction of the split_span
assertions the loop performs. -/
def writeChunksAssertOk (crc : List Nat → Nat) :
    Nat → MStore → Nat → List Nat → Bool
  | _, _, _, [] => true
  | 0, _, _, _ => true
  | fuel + 1, st, offset, buf =>
    let chunk := chunkOf buf
    let w := write_record crc st.file st.cursor offset chunk st.file_size
    addRecordAssertOk st.spans offset chunk.length
      && writeChunksAssertOk crc fuel
        { st with
          file := w.1, cursor := w.2.1, file_size := w.2.2.2,
          spans := add_record st.spans offset chunk.length w.2.2.1 false }
        (offset + chunk.length) (buf.drop chunk.length)

/-! Concrete executions used by the claims.  crc0 is a degenerate but
perfectly legal instantiation of the external CRC64 parameter (the spec
fixes only the width, not the polynomial); every checksum that the writer
stores is the value of the same function the readers recompute, so all the
scenarios below behave identically under any choice. -/

/-- Degenerate CRC64 instantiation used by the concrete scenarios. -/
def crc0 : List Nat → Nat := fun _ => 0

/-- The store produced by a writable open of an empty file. -/
def fresh0 : MStore := ⟨headerBytes, 12, [], 12, true⟩

/-- Apply a list of writes in order, stopping at the first error. -/
def applyWrites (crc : List Nat → Nat) :
    MStore → List (Nat × List Nat) → MStore × Option Error
  | st, [] => (st, none)
  | st, (off, data) :: rest =>
    match storeWrite crc st off data with
    | (st', none) => applyWrites crc st' rest
    | (st', some e) => (st', some e)

/-- Spec-side view, written from the claim wording (P1/P2): the logical byte
at o is the payload byte of the latest write whose range contains o, and 0
if no write covers it. -/
def specViewByte (writes : List (Nat × List Nat)) (o : Nat) : Nat :=
  writes.foldl
    (fun acc w =>
      if w.1 ≤ o ∧ o < w.1 + w.2.length then w.2.getD (o - w.1) 0 else acc)
    0

/-- The three writes of the stale-cursor scenario: the third write's
validate_range pass re-reads record one last, leaving the cursor at byte 33
(mid-file), where write_record then appends — destroying record two. -/
def scenarioWrites : List (Nat × List Nat) :=
  [(100, [10, 10]), (0, [11]), (100, [12, 12])]

/-- The store after the three scenario writes (all of which succeed). -/
def scenarioStore : MStore := (applyWrites crc0 fresh0 scenarioWrites).1

/-- The store after only the first i scenario writes. -/
def prefixStore (i : Nat) : MStore :=
  (applyWrites crc0 fresh0 (scenarioWrites.take i)).1

/-- A log whose tail is exactly a record header (11 bytes announcing a
1-byte payload) with no payload: the header read succeeds, then the payload
read returns zero bytes, and read_bytes_fail_back does not seek back. -/
def tornFile : List Nat := headerBytes ++ leBytes 8 0 ++ [1, 0, 0]

/-- A well-formed log holding one valid record whose length field is 0
(offset 5, empty payload, correct checksum). -/
def zeroRecFile : List Nat :=
  headerBytes ++ leBytes 8 5 ++ [0, 0, 0]
    ++ leBytes 8 (crcVal crc0 (leBytes 8 5 ++ [0, 0, 0]))

/-- C1.  The claim (spec P1/P2): after successful writes on one writable
handle, a read that returns Ok gives, at each byte, the payload byte of the
latest covering write, or 0.  The code violates this: during the third
scenario write, validate_range leaves the file cursor at byte 33 (the end of
record one, which it validated last), write_record appends there and
overwrites record two, and the span map keeps pointing offset 0 at file
position 44 — which now holds a data byte of the third write.  The read
returns Ok with byte 12; the latest write covering offset 0 wrote byte 11. -/
theorem c1_last_writer_wins_violated :
    open_writable crc0 [] = .ok fresh0 ∧
    (applyWrites crc0 fresh0 scenarioWrites).2 = none ∧
    (storeRead crc0 scenarioStore 0 1).2 = .ok [12] ∧
    specViewByte scenarioWrites 0 = 11 ∧
    (12 : Nat) ≠ 11 :=
  ⟨rfl, rfl, rfl, rfl, by decide⟩

/-- C2.  The claim (spec P4): truncating the log to any L in [12, length]
and reopening yields the view after the largest write whose records fit in
[12, L].  Counterexample at L = 54 = the whole file (no bytes removed): the
reopened view reads 0 at offset 0 and bytes 12,12 at offset 100, which
differs from the view after every one of the four possible write sequences
(the empty one and the three proper or full ones) — in particular from the
view after all of W, whose records all lie inside [12, 54].  The root cause
is the stale-cursor overwrite of record two during write three. -/
theorem c2_atomic_tail_violated :
    (applyWrites crc0 fresh0 scenarioWrites).2 = none ∧
    scenarioStore.file.length = 54 ∧ (12 ≤ 54 ∧ 54 ≤ 54) ∧
    (open_readonly crc0 (scenarioStore.file.take 54)).map
        (fun st => ((storeRead crc0 st 0 1).2, (storeRead crc0 st 100 2).2))
      = .ok (.ok [0], .ok [12, 12]) ∧
    (storeRead crc0 (prefixStore 0) 100 2).2 = .ok [0, 0] ∧
    (storeRead crc0 (prefixStore 1) 100 2).2 = .ok [10, 10] ∧
    (storeRead crc0 (prefixStore 2) 100 2).2 = .ok [10, 10] ∧
    (storeRead crc0 (prefixStore 3) 0 1).2 = .ok [12] ∧
    specViewByte scenarioWrites 0 = 11 ∧
    (([0, 0] : List Nat) ≠ [12, 12] ∧ ([10, 10] : List Nat) ≠ [12, 12]
      ∧ ([0] : List Nat) ≠ [12] ∧ (0 : Nat) ≠ 11) :=
  ⟨rfl, rfl, by decide, rfl, rfl, rfl, rfl, rfl, rfl, by decide⟩

/-- C3.  The claim: whenever read_next_record returns None the cursor has
been seeked back to the start of the attempted record, so after replay the
file position equals the store's file_size.  Counterexample: a tail that is
exactly the 11 header bytes of a record announcing a 1-byte payload.  The
payload read returns zero bytes, so the guard (if length != 0) in
read_bytes_fail_back skips the seek-back: read_next_record returns None with
the cursor at 23 while file_size stays 12. -/
theorem c3_fail_back_not_restored :
    read_next_record crc0 tornFile 12 12 = (none, 23, 12) ∧
    (open_writable crc0 tornFile).map (fun st => (st.cursor, st.file_size))
      = .ok (23, 12) ∧
    (23 : Nat) ≠ 12 :=
  ⟨rfl, rfl, by decide⟩

/-- C5.  The claim (spec P3): reopening after a close reconstructs the view
before close.  Counterexample: after the three scenario writes the in-memory
view reads byte 12 at offset 0, but reopening the same file (writable here;
read-only behaves identically) reads 0 there, because record two — the only
record covering offset 0 — was physically overwritten by the third write,
appended at a stale cursor. -/
theorem c5_replay_equivalence_violated :
    (applyWrites crc0 fresh0 scenarioWrites).2 = none ∧
    (storeRead crc0 scenarioStore 0 1).2 = .ok [12] ∧
    (open_writable crc0 scenarioStore.file).map
        (fun st => (storeRead crc0 st 0 1).2)
      = .ok (.ok [0]) ∧
    (([0] : List Nat) ≠ [12]) :=
  ⟨rfl, rfl, rfl, by decide⟩

/-- C6.  The claim: after every public operation no span is empty, even for
stores opened on files holding a record whose length field is 0 (which the
on-disk format permits).  Counterexample: replaying such a file inserts a
span of len 0, on which every debug_assert run of debug_check_spans fails;
the replay consumes the full 31-byte file (file_size 31), so the record was
accepted, not rejected as torn. -/
theorem c6_empty_span_inserted :
    (open_readonly crc0 zeroRecFile).map
        (fun st => (st.spans, debug_check_spans st.spans, st.file_size))
      = .ok ([(5, ⟨0, 23, true⟩)], false, 31) ∧
    zeroRecFile.length = 31 :=
  ⟨rfl, rfl⟩

/-- A buffer of exactly MAX_RECORD_SIZE bytes. -/
def oversized : List Nat := List.replicate (2 ^ 24) 0

/-- C4.  The claim: write splits its buffer into chunks strictly smaller
than MAX_RECORD_SIZE, so write_record's debug-asserted precondition holds
and the 3-byte length field is faithful.  The code chunks at
min(len, MAX_RECORD_SIZE): a buffer of 2^24 bytes becomes a single chunk of
exactly MAX_RECORD_SIZE bytes, the asserted bound fails, and the length
field wraps to 0, 0, 0 — decoding to 0, not to the chunk's length. -/
theorem c4_oversized_chunk : MAX_RECORD_SIZE = 2 ^ 24 ∧
    chunkOf oversized = oversized ∧
    (chunkOf oversized).length = MAX_RECORD_SIZE ∧
    ¬ (chunkOf oversized).length < MAX_RECORD_SIZE ∧
    leBytes 3 (chunkOf oversized).length = [0, 0, 0] ∧
    decodeLe (leBytes 3 (chunkOf oversized).length) = 0 ∧
    (0 : Nat) ≠ (chunkOf oversized).length := by
  have hmax : MAX_RECORD_SIZE = 2 ^ 24 := by decide
  have hrep : oversized.length = 2 ^ 24 := List.length_replicate _ _
  have hchunk : chunkOf oversized = oversized := by
    show oversized.take (min oversized.length MAX_RECORD_SIZE) = oversized
    rw [hrep, hmax, Nat.min_self, ← hrep]
    exact List.take_length _
  have hlen : (chunkOf oversized).length = 2 ^ 24 := by rw [hchunk, hrep]
  have hle : leBytes 3 (chunkOf oversized).length = [0, 0, 0] := by
    rw [hlen]; decide
  refine ⟨hmax, hchunk, by rw [hlen, hmax], ?_, hle, by rw [hle]; rfl, ?_⟩
  · rw [hlen, hmax]; exact lt_irrefl _
  · rw [hlen]; decide

/-- Helper: when validate_range exits with an error, the span map of the
resulting store is exactly the input one (the flag loop runs only after
every pending validation has succeeded). -/
theorem validate_range_error_spans (crc : List Nat → Nat) (st : MStore)
    (a b : Nat) (e : Error) (h : (validate_range crc st a b).2 = some e) :
    (validate_range crc st a b).1.spans = st.spans := by
  simp only [validate_range] at h ⊢
  split at h
  · simp at h
  · split at h <;> split
    all_goals simp_all

/-- C10.  If validate_range returns an error (CorruptRecord or a wrapped
I/O error) during read, write, or into_readonly, the span map is left
exactly as before the call, and the operation surfaces that error: the
validation loop runs first and the validated flags are flipped only after
every pending validation has succeeded. -/
theorem c10_validate_error_preserves_spans (crc : List Nat → Nat) (st : MStore) :
    (∀ a b e, (validate_range crc st a b).2 = some e →
      (validate_range crc st a b).1.spans = st.spans) ∧
    (∀ off n e,
      (validate_range crc st (prev_offset st.spans off) (off + n)).2 = some e →
      (storeRead crc st off n).1.spans = st.spans
        ∧ (storeRead crc st off n).2 = .error e) ∧
    (∀ off buf e,
      (validate_range crc st (prev_offset st.spans off)
        (off + List.length buf)).2 = some e →
      (storeWrite crc st off buf).1.spans = st.spans
        ∧ (storeWrite crc st off buf).2 = some e) ∧
    (∀ e, (validate_range crc st 0 (storeSize st)).2 = some e →
      (into_readonly crc st).1.spans = st.spans
        ∧ (into_readonly crc st).2 = some e) := by
  refine ⟨fun a b e h => validate_range_error_spans crc st a b e h, ?_, ?_, ?_⟩
  · intro off n e hv
    have hs := validate_range_error_spans crc st _ _ e hv
    constructor
    · simp only [storeRead]; rw [hv]; exact hs
    · simp only [storeRead]; rw [hv]
  · intro off buf e hv
    have hs := validate_range_error_spans crc st _ _ e hv
    constructor
    · simp only [storeWrite]; rw [hv]; exact hs
    · simp only [storeWrite]; rw [hv]
  · intro e hv
    have hs := validate_range_error_spans crc st _ _ e hv
    constructor
    · simp only [into_readonly]; rw [hv]; exact hs
    · simp only [into_readonly]; rw [hv]

/-- A writable store holding one unvalidated span whose stored checksum
bytes do not match the recomputed value: validation fails twice and
validate_range raises CorruptRecord. -/
def badStore : MStore :=
  ⟨headerBytes ++ leBytes 8 0 ++ [1, 0, 0] ++ [7] ++ [1, 0, 0, 0, 0, 0, 0, 0],
   12, [(0, ⟨1, 23, false⟩)], 32, true⟩

/-- Witness for C10 at a concrete failing store. -/
theorem c10_witness :
    (validate_range crc0 badStore 0 10).2 = some .corruptRecord ∧
    (validate_range crc0 badStore 0 10).1.spans = badStore.spans :=
  ⟨rfl, (c10_validate_error_preserves_spans crc0 badStore).1 0 10
    .corruptRecord rfl⟩

/-- Success-or-error projection of an open call. -/
def openOutcome : Except Error MStore → Option Error
  | .ok _ => none
  | .error e => some e

/-- Helper: getD into a take, inside the taken range. -/
theorem getD_take_eq (l : List Nat) (i n d : Nat) (h : i < n) :
    (l.take n).getD i d = l.getD i d := by
  simp [List.getD_eq_getElem?_getD, List.getElem?_take, h]

/-- Helper: set beyond the taken range does not change a take. -/
theorem take_set_of_le (l : List Nat) (i a n : Nat) (h : n ≤ i) :
    (l.set i a).take n = l.take n := by
  apply List.ext_getElem?
  intro j
  by_cases hj : j < n
  · rw [List.getElem?_take_of_lt hj, List.getElem?_take_of_lt hj,
      List.getElem?_set_ne (by omega)]
  · rw [List.getElem?_take_eq_none (by omega),
      List.getElem?_take_eq_none (by omega)]

/-- Helper: getD at an index other than the one set. -/
theorem getD_set_ne (l : List Nat) (i j a d : Nat) (h : i ≠ j) :
    (l.set i a).getD j d = l.getD j d := by
  simp [List.getD_eq_getElem?_getD, List.getElem?_set_ne h]

/-- Helper: on a file at least 12 bytes long with the right magic,
read_header succeeds and returns the three version fields. -/
theorem read_header_ok (file : File) (h12 : 12 ≤ file.length)
    (hm : file.take 8 = MAGIC) :
    read_header file 0 0
      = .ok (⟨file.getD 8 0, file.getD 9 0, decodeLe ((file.take 12).drop 10)⟩,
             12, 12) := by
  have hb : (file.drop 0).take 12 = file.take 12 := by rw [List.drop_zero]
  have hm8 : (file.take 12).take 8 = MAGIC := by
    rw [List.take_take]; simpa using hm
  simp only [read_header, hb]
  rw [if_pos (by omega), if_pos hm8]
  rw [getD_take_eq _ _ _ _ (by omega), getD_take_eq _ _ _ _ (by omega)]

/-- Helper: the exact outcome of a read-only open of a well-formed file —
the replay loop itself never produces an error, so only the major byte
decides. -/
theorem open_readonly_outcome (crc : List Nat → Nat) (file : File)
    (h12 : 12 ≤ file.length) (hm : file.take 8 = MAGIC) :
    openOutcome (open_readonly crc file)
      = if file.getD 8 0 ≤ CURRENT_MAJOR then none
        else some .unsupportedVersion := by
  simp only [open_readonly, read_newfile, read_header_ok file h12 hm]
  by_cases hmaj : file.getD 8 0 ≤ CURRENT_MAJOR
  · have hc : is_read_compatible
        ⟨file.getD 8 0, file.getD 9 0, decodeLe ((file.take 12).drop 10)⟩
        = true := decide_eq_true hmaj
    rw [hc, if_pos hmaj]
    simp [openOutcome]
  · have hc : is_read_compatible
        ⟨file.getD 8 0, file.getD 9 0, decodeLe ((file.take 12).drop 10)⟩
        = false := decide_eq_false hmaj
    rw [hc, if_neg hmaj]
    simp [openOutcome]

/-- Helper: the exact outcome of a writable open of a well-formed non-empty
file: the major and format bytes decide, nothing else. -/
theorem open_writable_outcome (crc : List Nat → Nat) (file : File)
    (h12 : 12 ≤ file.length) (hm : file.take 8 = MAGIC) :
    openOutcome (open_writable crc file)
      = if file.getD 8 0 ≤ CURRENT_MAJOR ∧ file.getD 9 0 ≤ CURRENT_FORMAT
        then none else some .unsupportedVersion := by
  simp only [open_writable, read_newfile, read_header_ok file h12 hm]
  rw [if_neg (show ¬ file.length = 0 by omega)]
  by_cases hok : file.getD 8 0 ≤ CURRENT_MAJOR ∧ file.getD 9 0 ≤ CURRENT_FORMAT
  · have hc : is_write_compatible
        ⟨file.getD 8 0, file.getD 9 0, decodeLe ((file.take 12).drop 10)⟩
        = true := by
      show (decide (file.getD 8 0 ≤ CURRENT_MAJOR)
        && decide (file.getD 9 0 ≤ CURRENT_FORMAT)) = true
      rw [decide_eq_true hok.1, decide_eq_true hok.2]; rfl
    rw [hc, if_pos hok]
    simp [openOutcome]
  · have hc : is_write_compatible
        ⟨file.getD 8 0, file.getD 9 0, decodeLe ((file.take 12).drop 10)⟩
        = false := by
      show (decide (file.getD 8 0 ≤ CURRENT_MAJOR)
        && decide (file.getD 9 0 ≤ CURRENT_FORMAT)) = false
      rcases Decidable.not_and_iff_or_not.mp hok with h | h
      · rw [decide_eq_false h]; rfl
      · rw [decide_eq_false h, Bool.and_false]
    rw [hc, if_neg hok]
    simp [openOutcome]

/-- C8.  On a well-formed store file (length at least 12, magic intact):
open_readonly succeeds exactly when the major byte is at most
CURRENT_MAJOR, regardless of the format and minor fields; a writable open
of the (necessarily non-empty) file returns UnsupportedVersion exactly when
major exceeds CURRENT_MAJOR or format exceeds CURRENT_FORMAT; and
rewriting the two minor bytes changes the outcome of neither open. -/
theorem c8_version_gating (crc : List Nat → Nat) (file : File)
    (h12 : 12 ≤ file.length) (hm : file.take 8 = MAGIC) :
    (openOutcome (open_readonly crc file) = none
      ↔ file.getD 8 0 ≤ CURRENT_MAJOR) ∧
    (openOutcome (open_writable crc file) = some .unsupportedVersion
      ↔ (CURRENT_MAJOR < file.getD 8 0 ∨ CURRENT_FORMAT < file.getD 9 0)) ∧
    (∀ a b : Nat,
      openOutcome (open_readonly crc ((file.set 10 a).set 11 b))
        = openOutcome (open_readonly crc file) ∧
      openOutcome (open_writable crc ((file.set 10 a).set 11 b))
        = openOutcome (open_writable crc file)) := by
  have hro := open_readonly_outcome crc file h12 hm
  have hwo := open_writable_outcome crc file h12 hm
  refine ⟨?_, ?_, ?_⟩
  · rw [hro]
    by_cases h : file.getD 8 0 ≤ CURRENT_MAJOR <;> simp [h]
  · rw [hwo]
    by_cases h8 : file.getD 8 0 ≤ CURRENT_MAJOR <;>
      by_cases h9 : file.getD 9 0 ≤ CURRENT_FORMAT <;>
        simp [h8, h9] <;> omega
  · intro a b
    have hlen : ((file.set 10 a).set 11 b).length = file.length := by simp
    have hm2 : ((file.set 10 a).set 11 b).take 8 = MAGIC := by
      rw [take_set_of_le _ _ _ _ (by omega), take_set_of_le _ _ _ _ (by omega),
        hm]
    have h8 : ((file.set 10 a).set 11 b).getD 8 0 = file.getD 8 0 := by
      rw [getD_set_ne _ _ _ _ _ (by omega), getD_set_ne _ _ _ _ _ (by omega)]
    have h9 : ((file.set 10 a).set 11 b).getD 9 0 = file.getD 9 0 := by
      rw [getD_set_ne _ _ _ _ _ (by omega), getD_set_ne _ _ _ _ _ (by omega)]
    constructor
    · rw [open_readonly_outcome crc _ (by omega) hm2, hro, h8]
    · rw [open_writable_outcome crc _ (by omega) hm2, hwo, h8, h9]

/-- Witness for C8 at the freshly-written 12-byte header file. -/
theorem c8_witness :
    openOutcome (open_readonly crc0 headerBytes) = none
      ↔ headerBytes.getD 8 0 ≤ CURRENT_MAJOR :=
  (c8_version_gating crc0 headerBytes (by decide) (by decide)).1

/-! Span-map toolkit: the BTreeMap invariants and how split_span,
add_record and the flag updates preserve them.  Used by claims C7 and C9. -/

/-- The span-map invariant: keys strictly increase along the list and
consecutive spans do not overlap. -/
def SpansWF (spans : Spans) : Prop :=
  spans.Pairwise (fun p q => p.1 < q.1 ∧ p.1 + p.2.len ≤ q.1)

/-- Key sortedness alone. -/
def keysSorted (spans : Spans) : Prop :=
  spans.Pairwise (fun p q => p.1 < q.1)

theorem SpansWF.sorted {l : Spans} (h : SpansWF l) : keysSorted l :=
  h.imp (fun hpq => hpq.1)

theorem wf_rel_of_mem {l : Spans} {p q : Nat × Span} (h : SpansWF l)
    (hp : p ∈ l) (hq : q ∈ l) (hlt : p.1 < q.1) : p.1 + p.2.len ≤ q.1 := by
  induction l with
  | nil => cases hp
  | cons a t ih =>
    obtain ⟨ha, ht⟩ := List.pairwise_cons.mp h
    cases hp with
    | head =>
      cases hq with
      | head => omega
      | tail _ hq' => exact (ha q hq').2
    | tail _ hp' =>
      cases hq with
      | head => exact absurd (ha p hp').1 (by omega)
      | tail _ hq' => exact ih ht hp' hq'

theorem sorted_key_eq {l : Spans} {p q : Nat × Span} (h : keysSorted l)
    (hp : p ∈ l) (hq : q ∈ l) (hk : p.1 = q.1) : p = q := by
  induction l with
  | nil => cases hp
  | cons a t ih =>
    obtain ⟨ha, ht⟩ := List.pairwise_cons.mp h
    cases hp with
    | head =>
      cases hq with
      | head => rfl
      | tail _ hq' => exact absurd (ha q hq') (by omega)
    | tail _ hp' =>
      cases hq with
      | head => exact absurd (ha p hp') (by omega)
      | tail _ hq' => exact ih ht hp' hq'

theorem sorted_getLast?_max {l : Spans} {p q : Nat × Span} (h : keysSorted l)
    (hp : p ∈ l) (hq : l.getLast? = some q) : p.1 ≤ q.1 := by
  induction l with
  | nil => cases hp
  | cons a t ih =>
    obtain ⟨ha, ht⟩ := List.pairwise_cons.mp h
    cases t with
    | nil =>
      have hq' : q = a := by
        have := List.mem_of_getLast?_eq_some hq
        simpa using this
      cases hp with
      | head => simp [hq']
      | tail _ hp' => cases hp'
    | cons b u =>
      rw [List.getLast?_cons_cons] at hq
      cases hp with
      | head =>
        have hb : q ∈ b :: u := List.mem_of_getLast?_eq_some hq
        exact le_of_lt (ha q hb)
      | tail _ hp' => exact ih ht hp' hq

theorem sorted_getLast?_eq {l : Spans} {p : Nat × Span} (h : keysSorted l)
    (hp : p ∈ l) (hmax : ∀ q ∈ l, q.1 ≤ p.1) : l.getLast? = some p := by
  induction l with
  | nil => cases hp
  | cons a t ih =>
    obtain ⟨ha, ht⟩ := List.pairwise_cons.mp h
    cases t with
    | nil =>
      cases hp with
      | head => simp
      | tail _ hp' => cases hp'
    | cons b u =>
      rw [List.getLast?_cons_cons]
      cases hp with
      | head =>
        exact absurd (hmax b (by simp)) (by have := ha b (by simp); omega)
      | tail _ hp' =>
        exact ih ht hp' (fun q hq => hmax q (List.mem_cons_of_mem a hq))

theorem prevEntry_mem {l : Spans} {x : Nat} {p : Nat × Span}
    (h : prevEntry l x = some p) : p ∈ l ∧ p.1 < x := by
  have hm := List.mem_of_getLast?_eq_some h
  have := List.mem_filter.mp hm
  exact ⟨this.1, of_decide_eq_true this.2⟩

theorem prevEntry_maximal {l : Spans} {x : Nat} {p q : Nat × Span}
    (hs : keysSorted l) (h : prevEntry l x = some p) (hq : q ∈ l)
    (hqx : q.1 < x) : q.1 ≤ p.1 := by
  have hqf : q ∈ l.filter (fun r => decide (r.1 < x)) :=
    List.mem_filter.mpr ⟨hq, decide_eq_true hqx⟩
  have hsf : keysSorted (l.filter (fun r => decide (r.1 < x))) :=
    hs.sublist (List.filter_sublist l)
  exact sorted_getLast?_max hsf hqf h

theorem prevEntry_none {l : Spans} {x : Nat} (h : prevEntry l x = none) :
    ∀ q ∈ l, ¬ q.1 < x := by
  intro q hq hqx
  have : l.filter (fun r => decide (r.1 < x)) = [] :=
    List.getLast?_eq_none_iff.mp h
  have : q ∈ ([] : Spans) := this ▸ List.mem_filter.mpr ⟨hq, decide_eq_true hqx⟩
  cases this

theorem prevEntry_eq_of {l : Spans} {x : Nat} {p : Nat × Span}
    (hs : keysSorted l) (hp : p ∈ l) (hpx : p.1 < x)
    (hmax : ∀ q ∈ l, q.1 < x → q.1 ≤ p.1) : prevEntry l x = some p := by
  have hpf : p ∈ l.filter (fun r => decide (r.1 < x)) :=
    List.mem_filter.mpr ⟨hp, decide_eq_true hpx⟩
  have hsf : keysSorted (l.filter (fun r => decide (r.1 < x))) :=
    hs.sublist (List.filter_sublist l)
  refine sorted_getLast?_eq hsf hpf ?_
  intro q hq
  have := List.mem_filter.mp hq
  exact hmax q this.1 (of_decide_eq_true this.2)

theorem mem_mapInsert_self (k : Nat) (v : Span) (l : Spans) :
    (k, v) ∈ mapInsert k v l := by
  induction l with
  | nil => simp [mapInsert]
  | cons a t ih =>
    simp only [mapInsert]
    split
    · simp
    · split
      · simp
      · exact List.mem_cons_of_mem a ih

theorem mem_mapInsert_of_mem {p : Nat × Span} {l : Spans} {k : Nat} {v : Span}
    (hp : p ∈ l) (hne : p.1 ≠ k) : p ∈ mapInsert k v l := by
  induction l with
  | nil => cases hp
  | cons a t ih =>
    simp only [mapInsert]
    split
    · exact List.mem_cons_of_mem _ hp
    · split
      · cases hp with
        | head => omega
        | tail _ hp' => exact List.mem_cons_of_mem _ hp'
      · cases hp with
        | head => exact List.mem_cons_self _ _
        | tail _ hp' => exact List.mem_cons_of_mem a (ih hp')

theorem mem_mapInsert {p : Nat × Span} {l : Spans} {k : Nat} {v : Span}
    (hs : keysSorted l) (hp : p ∈ mapInsert k v l) :
    p = (k, v) ∨ (p ∈ l ∧ p.1 ≠ k) := by
  induction l with
  | nil => simp [mapInsert] at hp; exact Or.inl hp
  | cons a t ih =>
    obtain ⟨ha, ht⟩ := List.pairwise_cons.mp hs
    simp only [mapInsert] at hp
    split at hp
    · next hk =>
      cases hp with
      | head => exact Or.inl rfl
      | tail _ hp' =>
        cases hp' with
        | head => exact Or.inr ⟨List.mem_cons_self _ _, by omega⟩
        | tail _ hp'' =>
          refine Or.inr ⟨List.mem_cons_of_mem a hp'', ?_⟩
          have := ha p hp''
          omega
    · split at hp
      · next hk =>
        cases hp with
        | head => exact Or.inl rfl
        | tail _ hp' =>
          refine Or.inr ⟨List.mem_cons_of_mem a hp', ?_⟩
          have := ha p hp'
          omega
      · next hk1 hk2 =>
        cases hp with
        | head => exact Or.inr ⟨List.mem_cons_self _ _, by omega⟩
        | tail _ hp' =>
          rcases ih ht hp' with h | ⟨hm, hne⟩
          · exact Or.inl h
          · exact Or.inr ⟨List.mem_cons_of_mem a hm, hne⟩

theorem mapInsert_sorted {l : Spans} {k : Nat} {v : Span}
    (hs : keysSorted l) : keysSorted (mapInsert k v l) := by
  induction l with
  | nil => simp [mapInsert, keysSorted]
  | cons a t ih =>
    obtain ⟨ha, ht⟩ := List.pairwise_cons.mp hs
    simp only [mapInsert]
    split
    · next hk =>
      refine List.pairwise_cons.mpr ⟨?_, hs⟩
      intro q hq
      cases hq with
      | head => exact hk
      | tail _ hq' => have := ha q hq'; omega
    · split
      · next hk1 hk2 =>
        exact List.pairwise_cons.mpr ⟨fun q hq => by have := ha q hq; omega, ht⟩
      · next hk1 hk2 =>
        refine List.pairwise_cons.mpr ⟨?_, ih ht⟩
        intro q hq
        rcases mem_mapInsert ht hq with h | ⟨hm, _⟩
        · subst h; omega
        · exact ha q hm

theorem mapInsert_wf {l : Spans} {k : Nat} {v : Span} (hwf : SpansWF l)
    (hlo : ∀ p ∈ l, p.1 < k → p.1 + p.2.len ≤ k)
    (hhi : ∀ p ∈ l, k < p.1 → k + v.len ≤ p.1) :
    SpansWF (mapInsert k v l) := by
  induction l with
  | nil => simp [mapInsert, SpansWF]
  | cons a t ih =>
    obtain ⟨ha, ht⟩ := List.pairwise_cons.mp hwf
    simp only [mapInsert]
    split
    · next hk =>
      refine List.pairwise_cons.mpr ⟨?_, hwf⟩
      intro q hq
      cases hq with
      | head => exact ⟨hk, hhi a (List.mem_cons_self _ _) hk⟩
      | tail _ hq' =>
        have h1 := ha q hq'
        exact ⟨by omega, hhi q (List.mem_cons_of_mem a hq') (by omega)⟩
    · split
      · next hk1 hk2 =>
        refine List.pairwise_cons.mpr ⟨?_, ht⟩
        intro q hq
        have h1 := ha q hq
        exact ⟨by omega, hhi q (List.mem_cons_of_mem a hq) (by omega)⟩
      · next hk1 hk2 =>
        refine List.pairwise_cons.mpr ⟨?_, ?_⟩
        · intro q hq
          rcases mem_mapInsert (SpansWF.sorted ht) hq with h | ⟨hm, _⟩
          · subst h
            exact ⟨by omega, hlo a (List.mem_cons_self _ _) (by omega)⟩
          · exact ha q hm
        · exact ih ht (fun p hp => hlo p (List.mem_cons_of_mem a hp))
            (fun p hp => hhi p (List.mem_cons_of_mem a hp))

theorem wf_of_forall {l : Spans} (hs : keysSorted l)
    (h : ∀ p ∈ l, ∀ q ∈ l, p.1 < q.1 → p.1 + p.2.len ≤ q.1) : SpansWF l := by
  induction l with
  | nil => exact List.Pairwise.nil
  | cons a t ih =>
    obtain ⟨ha, ht⟩ := List.pairwise_cons.mp hs
    refine List.pairwise_cons.mpr ⟨?_, ?_⟩
    · intro q hq
      have hk := ha q hq
      exact ⟨hk, h a (List.mem_cons_self _ _) q (List.mem_cons_of_mem a hq) hk⟩
    · exact ih ht (fun p hp q hq => h p (List.mem_cons_of_mem a hp) q
        (List.mem_cons_of_mem a hq))

theorem end_le_spansSize {l : Spans} {p : Nat × Span} (hwf : SpansWF l)
    (hp : p ∈ l) : p.1 + p.2.len ≤ spansSize l := by
  cases hq : l.getLast? with
  | none =>
    rw [List.getLast?_eq_none_iff] at hq
    subst hq; cases hp
  | some q =>
    obtain ⟨qk, qs⟩ := q
    have hmem : (qk, qs) ∈ l := List.mem_of_getLast?_eq_some hq
    have hle : p.1 ≤ qk := sorted_getLast?_max hwf.sorted hp hq
    have hsz : spansSize l = qk + qs.len := by rw [spansSize, hq]
    rw [hsz]
    rcases Nat.lt_or_ge p.1 qk with h | h
    · have := wf_rel_of_mem hwf hp hmem h
      omega
    · have hpq : p = (qk, qs) := sorted_key_eq hwf.sorted hp hmem (by omega)
      rw [hpq]

/-- One logical point being covered by some span of the map. -/
def covered (l : Spans) (o : Nat) : Prop :=
  ∃ p ∈ l, p.1 ≤ o ∧ o < p.1 + p.2.len

theorem split_span_eq_of_none {l : Spans} {x : Nat}
    (hpe : prevEntry l x = none) : split_span l x = l := by
  simp [split_span, hpe]

theorem split_span_eq_of_no_overlap {l : Spans} {x k : Nat} {s : Span}
    (hpe : prevEntry l x = some (k, s)) (hov : ¬ x < k + s.len) :
    split_span l x = l := by
  simp [split_span, hpe, hov]

theorem split_span_eq_of_overlap {l : Spans} {x k : Nat} {s : Span}
    (hpe : prevEntry l x = some (k, s)) (hov : x < k + s.len) :
    split_span l x
      = mapInsert k ⟨x - k, s.file_data_offset, s.validated⟩
          (mapInsert x ⟨s.len - (x - k), s.file_data_offset + (x - k),
            s.validated⟩ l) := by
  simp [split_span, hpe, hov]

theorem split_span_left_closed {l : Spans} {x : Nat} {p : Nat × Span}
    (hwf : SpansWF l) (hp : p ∈ split_span l x) (hlt : p.1 < x) :
    p.1 + p.2.len ≤ x := by
  cases hpe : prevEntry l x with
  | none =>
    rw [split_span_eq_of_none hpe] at hp
    exact absurd hlt (prevEntry_none hpe p hp)
  | some ks =>
    obtain ⟨k, s⟩ := ks
    obtain ⟨hkm, hkx⟩ := prevEntry_mem hpe
    by_cases hov : x < k + s.len
    · rw [split_span_eq_of_overlap hpe hov] at hp
      have hs1 : keysSorted (mapInsert x
          ⟨s.len - (x - k), s.file_data_offset + (x - k), s.validated⟩ l) :=
        mapInsert_sorted hwf.sorted
      rcases mem_mapInsert hs1 hp with h | ⟨hp1, hpk⟩
      · subst h
        show k + (x - k) ≤ x
        omega
      · rcases mem_mapInsert hwf.sorted hp1 with h | ⟨hp2, hpx⟩
        · subst h; omega
        · have hle := prevEntry_maximal hwf.sorted hpe hp2 hlt
          have hne : p.1 < k := by omega
          have := wf_rel_of_mem hwf hp2 hkm hne
          omega
    · rw [split_span_eq_of_no_overlap hpe hov] at hp
      have hle := prevEntry_maximal hwf.sorted hpe hp hlt
      rcases Nat.lt_or_ge p.1 k with h | h
      · have := wf_rel_of_mem hwf hp hkm h
        omega
      · have hpk : p = (k, s) := sorted_key_eq hwf.sorted hp hkm (by omega)
        rw [hpk]
        show k + s.len ≤ x
        omega

theorem split_span_keep_ge {l : Spans} {x : Nat} {p : Nat × Span}
    (hwf : SpansWF l) (hp : p ∈ l) (hge : x ≤ p.1) : p ∈ split_span l x := by
  cases hpe : prevEntry l x with
  | none => rw [split_span_eq_of_none hpe]; exact hp
  | some ks =>
    obtain ⟨k, s⟩ := ks
    obtain ⟨hkm, hkx⟩ := prevEntry_mem hpe
    by_cases hov : x < k + s.len
    · rw [split_span_eq_of_overlap hpe hov]
      have hpx : p.1 ≠ x := by
        intro hx
        have : k + s.len ≤ p.1 := wf_rel_of_mem hwf hkm hp (by omega)
        omega
      exact mem_mapInsert_of_mem (mem_mapInsert_of_mem hp hpx) (by omega)
    · rw [split_span_eq_of_no_overlap hpe hov]
      exact hp

theorem covered_split_span {l : Spans} {x o : Nat} (hwf : SpansWF l)
    (ho : covered l o) : covered (split_span l x) o := by
  obtain ⟨p, hp, hlo, hhi⟩ := ho
  cases hpe : prevEntry l x with
  | none => exact ⟨p, by rw [split_span_eq_of_none hpe]; exact hp, hlo, hhi⟩
  | some ks =>
    obtain ⟨k, s⟩ := ks
    obtain ⟨hkm, hkx⟩ := prevEntry_mem hpe
    by_cases hov : x < k + s.len
    · rw [split_span_eq_of_overlap hpe hov]
      have hnox : ∀ q : Nat × Span, q ∈ l → q.1 ≠ x := by
        intro q hq hx
        have : k + s.len ≤ q.1 := wf_rel_of_mem hwf hkm hq (by omega)
        omega
      by_cases hpk : p = (k, s)
      · subst hpk
        rcases Nat.lt_or_ge o x with hox | hox
        · refine ⟨(k, ⟨x - k, s.file_data_offset, s.validated⟩),
            mem_mapInsert_self _ _ _, ?_, ?_⟩
          · show k ≤ o
            exact hlo
          · show o < k + (x - k)
            omega
        · refine ⟨(x, ⟨s.len - (x - k), s.file_data_offset + (x - k),
            s.validated⟩), ?_, hox, ?_⟩
          · exact mem_mapInsert_of_mem (mem_mapInsert_self _ _ _) (by omega)
          · show o < x + (s.len - (x - k))
            have : o < k + s.len := hhi
            omega
      · have hne : p.1 ≠ k := by
          intro he
          exact hpk (sorted_key_eq hwf.sorted hp hkm he)
        exact ⟨p, mem_mapInsert_of_mem
          (mem_mapInsert_of_mem hp (hnox p hp)) hne, hlo, hhi⟩
    · rw [split_span_eq_of_no_overlap hpe hov]
      exact ⟨p, hp, hlo, hhi⟩

theorem split_span_wf {l : Spans} {x : Nat} (hwf : SpansWF l) :
    SpansWF (split_span l x) := by
  cases hpe : prevEntry l x with
  | none => rw [split_span_eq_of_none hpe]; exact hwf
  | some ks =>
    obtain ⟨k, s⟩ := ks
    obtain ⟨hkm, hkx⟩ := prevEntry_mem hpe
    by_cases hov : x < k + s.len
    · rw [split_span_eq_of_overlap hpe hov]
      have hnox : ∀ q : Nat × Span, q ∈ l → q.1 ≠ x := by
        intro q hq hx
        have : k + s.len ≤ q.1 := wf_rel_of_mem hwf hkm hq (by omega)
        omega
      have hs1 : keysSorted (mapInsert x
          ⟨s.len - (x - k), s.file_data_offset + (x - k), s.validated⟩ l) :=
        mapInsert_sorted hwf.sorted
      have hdec : ∀ r : Nat × Span,
          r ∈ mapInsert k ⟨x - k, s.file_data_offset, s.validated⟩
            (mapInsert x ⟨s.len - (x - k), s.file_data_offset + (x - k),
              s.validated⟩ l) →
          r = (k, ⟨x - k, s.file_data_offset, s.validated⟩)
            ∨ r = (x, ⟨s.len - (x - k), s.file_data_offset + (x - k),
                s.validated⟩)
            ∨ (r ∈ l ∧ r.1 ≠ k ∧ r.1 ≠ x) := by
        intro r hr
        rcases mem_mapInsert hs1 hr with h | ⟨hr1, hrk⟩
        · exact Or.inl h
        · rcases mem_mapInsert hwf.sorted hr1 with h | ⟨hr2, hrx⟩
          · exact Or.inr (Or.inl h)
          · exact Or.inr (Or.inr ⟨hr2, hrk, hrx⟩)
      refine wf_of_forall (mapInsert_sorted hs1) ?_
      intro p hp q hq hlt
      rcases hdec p hp with hpA | hpB | ⟨hpm, hpk, hpx⟩
      · subst hpA
        rcases hdec q hq with hqA | hqB | ⟨hqm, hqk, hqx⟩
        · subst hqA; exact absurd hlt (lt_irrefl _)
        · subst hqB
          show k + (x - k) ≤ x
          omega
        · have hlt' : k < q.1 := hlt
          have hge : ¬ q.1 < x := fun h =>
            absurd (prevEntry_maximal hwf.sorted hpe hqm h) (by omega)
          show k + (x - k) ≤ q.1
          omega
      · subst hpB
        rcases hdec q hq with hqA | hqB | ⟨hqm, hqk, hqx⟩
        · subst hqA
          have hlt' : x < k := hlt
          omega
        · subst hqB; exact absurd hlt (lt_irrefl _)
        · have hlt' : x < q.1 := hlt
          have hrel : k + s.len ≤ q.1 :=
            wf_rel_of_mem hwf hkm hqm (show k < q.1 by omega)
          show x + (s.len - (x - k)) ≤ q.1
          omega
      · rcases hdec q hq with hqA | hqB | ⟨hqm, hqk, hqx⟩
        · subst hqA
          have hlt' : p.1 < k := hlt
          have hrel : p.1 + p.2.len ≤ k := wf_rel_of_mem hwf hpm hkm hlt'
          exact hrel
        · subst hqB
          have hlt' : p.1 < x := hlt
          have hle := prevEntry_maximal hwf.sorted hpe hpm hlt'
          have hit : p.1 < k := by omega
          have hrel : p.1 + p.2.len ≤ k := wf_rel_of_mem hwf hpm hkm hit
          show p.1 + p.2.len ≤ x
          omega
        · exact wf_rel_of_mem hwf hpm hqm hlt
    · rw [split_span_eq_of_no_overlap hpe hov]
      exact hwf

/-- All spans have positive length (the strong invariant of claim C9). -/
def AllPos (l : Spans) : Prop := ∀ p ∈ l, 0 < p.2.len

theorem allPos_split_span {l : Spans} {x : Nat} (hs : keysSorted l)
    (hpos : AllPos l) : AllPos (split_span l x) := by
  intro p hp
  cases hpe : prevEntry l x with
  | none => exact hpos p (by rwa [split_span_eq_of_none hpe] at hp)
  | some ks =>
    obtain ⟨k, s⟩ := ks
    obtain ⟨hkm, hkx⟩ := prevEntry_mem hpe
    by_cases hov : x < k + s.len
    · rw [split_span_eq_of_overlap hpe hov] at hp
      rcases mem_mapInsert (mapInsert_sorted hs) hp with h | ⟨hp1, _⟩
      · subst h; show 0 < x - k; omega
      · rcases mem_mapInsert hs hp1 with h | ⟨hp2, _⟩
        · subst h; show 0 < s.len - (x - k); omega
        · exact hpos p hp2
    · rw [split_span_eq_of_no_overlap hpe hov] at hp
      exact hpos p hp

theorem spans2_left_closed {l : Spans} {lo len : Nat} {p : Nat × Span}
    (hwf : SpansWF l)
    (hp : p ∈ split_span (split_span l lo) (lo + len)) (hlt : p.1 < lo) :
    p.1 + p.2.len ≤ lo := by
  have hwf1 : SpansWF (split_span l lo) := split_span_wf hwf
  cases hpe : prevEntry (split_span l lo) (lo + len) with
  | none =>
    rw [split_span_eq_of_none hpe] at hp
    exact split_span_left_closed hwf hp hlt
  | some ks =>
    obtain ⟨k, s⟩ := ks
    obtain ⟨hkm, hkx⟩ := prevEntry_mem hpe
    by_cases hov : lo + len < k + s.len
    · rw [split_span_eq_of_overlap hpe hov] at hp
      rcases mem_mapInsert (mapInsert_sorted hwf1.sorted) hp with h | ⟨hp1, _⟩
      · subst h
        have hklo : k < lo := hlt
        have h2 : k + s.len ≤ lo := split_span_left_closed hwf hkm hklo
        show k + (lo + len - k) ≤ lo
        omega
      · rcases mem_mapInsert hwf1.sorted hp1 with h | ⟨hp2, _⟩
        · subst h
          exact absurd hlt (by show ¬ lo + len < lo; omega)
        · exact split_span_left_closed hwf hp2 hlt
    · rw [split_span_eq_of_no_overlap hpe hov] at hp
      exact split_span_left_closed hwf hp hlt

theorem add_record_wf {l : Spans} {lo len fdo : Nat} {v : Bool}
    (hwf : SpansWF l) : SpansWF (add_record l lo len fdo v) := by
  have hwf2 : SpansWF (split_span (split_span l lo) (lo + len)) :=
    split_span_wf (split_span_wf hwf)
  have hwf3 : SpansWF ((split_span (split_span l lo) (lo + len)).filter
      (fun p => !(decide (lo ≤ p.1) && decide (p.1 < lo + len)))) :=
    hwf2.sublist (List.filter_sublist _)
  refine mapInsert_wf hwf3 ?_ ?_
  · intro p hp hlt
    exact spans2_left_closed hwf (List.mem_filter.mp hp).1 hlt
  · intro p hp hlt
    have := (List.mem_filter.mp hp).2
    simp only [Bool.not_eq_true', Bool.and_eq_false_iff, decide_eq_false_iff_not] at this
    show lo + len ≤ p.1
    rcases this with h | h
    · omega
    · omega

theorem allPos_add_record {l : Spans} {lo len fdo : Nat} {v : Bool}
    (hwf : SpansWF l) (hpos : AllPos l) (hlen : 0 < len) :
    AllPos (add_record l lo len fdo v) := by
  intro p hp
  have hwf2 : SpansWF (split_span (split_span l lo) (lo + len)) :=
    split_span_wf (split_span_wf hwf)
  have hpos2 : AllPos (split_span (split_span l lo) (lo + len)) :=
    allPos_split_span (split_span_wf hwf).sorted
      (allPos_split_span hwf.sorted hpos)
  have hs3 : keysSorted ((split_span (split_span l lo) (lo + len)).filter
      (fun p => !(decide (lo ≤ p.1) && decide (p.1 < lo + len)))) :=
    hwf2.sorted.sublist (List.filter_sublist _)
  rcases mem_mapInsert hs3 hp with h | ⟨hp1, _⟩
  · subst h; exact hlen
  · exact hpos2 p (List.mem_filter.mp hp1).1

theorem spansSize_le_add_record {l : Spans} {lo len fdo : Nat} {v : Bool}
    (hwf : SpansWF l) (hpos : AllPos l) (hlen : 0 < len) :
    spansSize l ≤ spansSize (add_record l lo len fdo v) := by
  have hwfR : SpansWF (add_record l lo len fdo v) := add_record_wf hwf
  cases hlast : l.getLast? with
  | none =>
    have : spansSize l = 0 := by rw [spansSize, hlast]
    omega
  | some q =>
    obtain ⟨K, S⟩ := q
    have hsz : spansSize l = K + S.len := by rw [spansSize, hlast]
    have hKm : (K, S) ∈ l := List.mem_of_getLast?_eq_some hlast
    have hSpos : 0 < S.len := hpos _ hKm
    rw [hsz]
    rcases le_or_lt (K + S.len) (lo + len) with hA | hB
    · have hmem : ((lo : Nat), (⟨len, fdo, v⟩ : Span))
          ∈ add_record l lo len fdo v := mem_mapInsert_self _ _ _
      have := end_le_spansSize hwfR hmem
      have hend : lo + len ≤ spansSize (add_record l lo len fdo v) := this
      omega
    · have hcov : covered l (K + S.len - 1) :=
        ⟨(K, S), hKm, show K ≤ K + S.len - 1 by omega,
          show K + S.len - 1 < K + S.len by omega⟩
      have hcov2 : covered (split_span (split_span l lo) (lo + len))
          (K + S.len - 1) :=
        covered_split_span (split_span_wf hwf) (covered_split_span hwf hcov)
      obtain ⟨q, hq, hqlo, hqhi⟩ := hcov2
      have hqge : lo + len ≤ q.1 := by
        by_contra h
        rcases Nat.lt_or_ge q.1 lo with h1 | h1
        · have := spans2_left_closed hwf hq h1
          omega
        · have := split_span_left_closed (split_span_wf hwf) hq (by omega)
          omega
      have hq3 : q ∈ (split_span (split_span l lo) (lo + len)).filter
          (fun p => !(decide (lo ≤ p.1) && decide (p.1 < lo + len))) := by
        refine List.mem_filter.mpr ⟨hq, ?_⟩
        simp only [Bool.not_eq_true', Bool.and_eq_false_iff,
          decide_eq_false_iff_not]
        omega
      have hqR : q ∈ add_record l lo len fdo v :=
        mem_mapInsert_of_mem hq3 (by omega)
      have := end_le_spansSize hwfR hqR
      omega

theorem flipFun_fst (ks : List Nat) (p : Nat × Span) :
    ((if ks.contains p.1 then (p.1, { p.2 with validated := true })
      else p) : Nat × Span).1 = p.1 := by
  split <;> rfl

theorem flipFun_len (ks : List Nat) (p : Nat × Span) :
    ((if ks.contains p.1 then (p.1, { p.2 with validated := true })
      else p) : Nat × Span).2.len = p.2.len := by
  split <;> rfl

theorem flipValidated_wf {l : Spans} {ks : List Nat} (hwf : SpansWF l) :
    SpansWF (flipValidated l ks) := by
  refine List.Pairwise.map _ ?_ hwf
  intro a b hab
  constructor
  · rw [flipFun_fst, flipFun_fst]; exact hab.1
  · rw [flipFun_fst, flipFun_fst, flipFun_len]; exact hab.2

theorem flipValidated_allPos {l : Spans} {ks : List Nat} (h : AllPos l) :
    AllPos (flipValidated l ks) := by
  intro p hp
  obtain ⟨q, hq, rfl⟩ := List.mem_map.mp hp
  have h0 := h q hq
  rw [flipFun_len]
  exact h0

theorem flipValidated_spansSize (l : Spans) (ks : List Nat) :
    spansSize (flipValidated l ks) = spansSize l := by
  unfold flipValidated spansSize
  rw [List.getLast?_map]
  cases hl : l.getLast? with
  | none => rfl
  | some p =>
    obtain ⟨k, sp⟩ := p
    simp only [Option.map_some']
    by_cases h : ks.contains (k, sp).1 = true
    · rw [if_pos h]
    · rw [if_neg h]

theorem validate_range_spans_cases (crc : List Nat → Nat) (st : MStore)
    (a b : Nat) :
    (validate_range crc st a b).1.spans = st.spans ∨
    ∃ ks, (validate_range crc st a b).1.spans = flipValidated st.spans ks := by
  simp only [validate_range]
  split
  · exact Or.inl rfl
  · split
    · exact Or.inl rfl
    · exact Or.inr ⟨_, rfl⟩

theorem validate_range_wf {crc : List Nat → Nat} {st : MStore} {a b : Nat}
    (hwf : SpansWF st.spans) :
    SpansWF (validate_range crc st a b).1.spans := by
  rcases validate_range_spans_cases crc st a b with h | ⟨ks, h⟩
  · rw [h]; exact hwf
  · rw [h]; exact flipValidated_wf hwf

theorem validate_range_ok_spans {crc : List Nat → Nat} {st : MStore}
    {a b : Nat} {st1 : MStore} (hw : st.writable = true)
    (h : validate_range crc st a b = (st1, none)) :
    st1.spans = flipValidated st.spans
      ((((rangeEntries st.spans a b).filter (fun p => !p.2.validated)).map
        (fun p => (p.1, p.2.file_data_offset, p.2.len))).map
          (fun t => t.1)) := by
  simp only [validate_range] at h
  rw [if_neg (by simp [hw])] at h
  split at h
  · simp at h
  · injection h with h1 h2
    subst h1
    rfl

theorem validate_range_post {crc : List Nat → Nat} {st : MStore}
    {a b : Nat} {st1 : MStore} (hw : st.writable = true)
    (h : validate_range crc st a b = (st1, none)) :
    ∀ p ∈ st1.spans, a ≤ p.1 → p.1 < b → p.2.validated = true := by
  intro p hp hpa hpb
  rw [validate_range_ok_spans hw h] at hp
  obtain ⟨q, hq, rfl⟩ := List.mem_map.mp hp
  rw [flipFun_fst] at hpa hpb
  by_cases hqv : q.2.validated = true
  · show (if _ then _ else _ : Nat × Span).2.validated = true
    split
    · rfl
    · exact hqv
  · have hqr : q ∈ rangeEntries st.spans a b :=
      List.mem_filter.mpr ⟨hq, by simp [hpa, hpb]⟩
    have hqf : q ∈ (rangeEntries st.spans a b).filter
        (fun p => !p.2.validated) :=
      List.mem_filter.mpr ⟨hqr, by simp [hqv]⟩
    have hmem : q.1 ∈ (((rangeEntries st.spans a b).filter
        (fun p => !p.2.validated)).map
          (fun p => (p.1, p.2.file_data_offset, p.2.len))).map
            (fun t => t.1) :=
      List.mem_map.mpr ⟨(q.1, q.2.file_data_offset, q.2.len),
        List.mem_map.mpr ⟨q, hqf, rfl⟩, rfl⟩
    show (if _ then _ else _ : Nat × Span).2.validated = true
    rw [if_pos (List.elem_eq_true_of_mem hmem)]

/-- Every span intersecting the region beyond curOff and keyed below endOff
is validated: the condition validate_range establishes before the write
loop runs, and that each add_record step maintains. -/
def rangeValidated (l : Spans) (curOff endOff : Nat) : Prop :=
  ∀ p ∈ l, p.1 < endOff → curOff < p.1 + p.2.len → p.2.validated = true

theorem splitAssertOk_of_rangeValidated {l : Spans} {curOff endOff x : Nat}
    (hJ : rangeValidated l curOff endOff) (hcx : curOff ≤ x)
    (hxe : x ≤ endOff) : splitAssertOk l x = true := by
  unfold splitAssertOk
  cases hpe : prevEntry l x with
  | none => rfl
  | some ks =>
    obtain ⟨k, s⟩ := ks
    obtain ⟨hkm, hkx⟩ := prevEntry_mem hpe
    by_cases hov : x < k + s.len
    · have hval : s.validated = true :=
        hJ (k, s) hkm (show k < endOff by omega)
          (show curOff < k + s.len by omega)
      simp [hval]
    · simp [hov]

theorem rangeValidated_split {l : Spans} {curOff endOff x : Nat}
    (hwf : SpansWF l) (hJ : rangeValidated l curOff endOff)
    (hxe : x ≤ endOff) : rangeValidated (split_span l x) curOff endOff := by
  intro p hp hpb hpov
  cases hpe : prevEntry l x with
  | none =>
    rw [split_span_eq_of_none hpe] at hp
    exact hJ p hp hpb hpov
  | some ks =>
    obtain ⟨k, s⟩ := ks
    obtain ⟨hkm, hkx⟩ := prevEntry_mem hpe
    by_cases hov : x < k + s.len
    · rw [split_span_eq_of_overlap hpe hov] at hp
      rcases mem_mapInsert (mapInsert_sorted hwf.sorted) hp with h | ⟨hp1, hpk⟩
      · subst h
        have hpov' : curOff < k + (x - k) := hpov
        exact hJ (k, s) hkm (show k < endOff by omega)
          (show curOff < k + s.len by omega)
      · rcases mem_mapInsert hwf.sorted hp1 with h | ⟨hp2, hpx⟩
        · subst h
          have hpov' : curOff < x + (s.len - (x - k)) := hpov
          exact hJ (k, s) hkm (show k < endOff by omega)
            (show curOff < k + s.len by omega)
        · exact hJ p hp2 hpb hpov
    · rw [split_span_eq_of_no_overlap hpe hov] at hp
      exact hJ p hp hpb hpov

theorem rangeValidated_add {l : Spans} {curOff clen fdo endOff : Nat}
    (hwf : SpansWF l) (hJ : rangeValidated l curOff endOff)
    (hnext : curOff + clen ≤ endOff) :
    rangeValidated (add_record l curOff clen fdo false) (curOff + clen)
      endOff := by
  intro p hp hpb hpov
  have hwf1 : SpansWF (split_span l curOff) := split_span_wf hwf
  have hJ2 : rangeValidated (split_span (split_span l curOff) (curOff + clen))
      curOff endOff :=
    rangeValidated_split hwf1
      (rangeValidated_split hwf hJ (by omega)) hnext
  have hs3 : keysSorted ((split_span (split_span l curOff)
      (curOff + clen)).filter
        (fun p => !(decide (curOff ≤ p.1)
          && decide (p.1 < curOff + clen)))) :=
    (split_span_wf hwf1).sorted.sublist (List.filter_sublist _)
  simp only [add_record] at hp
  rcases mem_mapInsert hs3 hp with h | ⟨hp1, hpk⟩
  · subst h
    exact absurd hpov (by show ¬ curOff + clen < curOff + clen; omega)
  · exact hJ2 p (List.mem_filter.mp hp1).1 hpb (by omega)

theorem writeChunksAssertOk_true (crc : List Nat → Nat) :
    ∀ (fuel : Nat) (st : MStore) (offset : Nat) (buf : List Nat),
      SpansWF st.spans →
      rangeValidated st.spans offset (offset + buf.length) →
      writeChunksAssertOk crc fuel st offset buf = true := by
  intro fuel
  induction fuel with
  | zero =>
    intro st offset buf _ _
    cases buf with
    | nil => rfl
    | cons b bs => rfl
  | succ n ih =>
    intro st offset buf hwf hJ
    cases buf with
    | nil => rfl
    | cons b bs =>
      have hM : 0 < MAX_RECORD_SIZE := by decide
      have hclen : (chunkOf (b :: bs)).length
          = min (b :: bs).length MAX_RECORD_SIZE := by
        rw [chunkOf, List.length_take]
        omega
      have hpos : 0 < (chunkOf (b :: bs)).length := by
        rw [hclen]
        have : 0 < (b :: bs).length := by simp
        omega
      have hle : (chunkOf (b :: bs)).length ≤ (b :: bs).length := by
        rw [hclen]; omega
      simp only [writeChunksAssertOk]
      rw [Bool.and_eq_true]
      constructor
      · rw [addRecordAssertOk, Bool.and_eq_true]
        constructor
        · exact splitAssertOk_of_rangeValidated hJ (le_refl _)
            (Nat.le_add_right _ _)
        · exact splitAssertOk_of_rangeValidated
            (rangeValidated_split hwf hJ (Nat.le_add_right _ _))
            (Nat.le_add_right _ _) (by omega)
      · have hlen2 : (offset + (chunkOf (b :: bs)).length)
            + ((b :: bs).drop (chunkOf (b :: bs)).length).length
            = offset + (b :: bs).length := by
          rw [List.length_drop]; omega
        refine ih _ _ _ (add_record_wf hwf) ?_
        rw [hlen2]
        exact rangeValidated_add hwf hJ (by omega)

set_option maxHeartbeats 1000000 in
/-- Stores reachable through the public API: an open (of any file, in either
mode), followed by any sequence of reads, writes (on writable stores, as the
type states of the source enforce) and downgrades.  Failed operations leave
their store too, so those states are included. -/
inductive ReachableStore : MStore → Prop where
  | openedW (crc : List Nat → Nat) (file : File) (st : MStore) :
      open_writable crc file = .ok st → ReachableStore st
  | openedR (crc : List Nat → Nat) (file : File) (st : MStore) :
      open_readonly crc file = .ok st → ReachableStore st
  | stepRead (crc : List Nat → Nat) (st : MStore) (off n : Nat) :
      ReachableStore st → ReachableStore (storeRead crc st off n).1
  | stepWrite (crc : List Nat → Nat) (st : MStore) (off : Nat)
      (buf : List Nat) : st.writable = true → ReachableStore st →
      ReachableStore (storeWrite crc st off buf).1
  | stepIntoRO (crc : List Nat → Nat) (st : MStore) :
      st.writable = true → ReachableStore st →
      ReachableStore (into_readonly crc st).1

theorem replayLoop_wf (crc : List Nat → Nat) (fuel : Nat) :
    ∀ st : MStore, SpansWF st.spans →
      SpansWF (replayLoop crc fuel st).spans := by
  induction fuel with
  | zero => intro st h; exact h
  | succ n ih =>
    intro st h
    simp only [replayLoop]
    split
    · exact h
    · exact ih _ (add_record_wf h)

theorem read_newfile_wf (crc : List Nat → Nat) (st : MStore)
    (compatible : HeaderVer → Bool) (h : SpansWF st.spans) :
    SpansWF (read_newfile crc st compatible).1.spans := by
  simp only [read_newfile]
  split
  · exact h
  · split
    · exact h
    · exact replayLoop_wf crc _ _ h

theorem open_writable_wf {crc : List Nat → Nat} {file : File} {st : MStore}
    (h : open_writable crc file = .ok st) : SpansWF st.spans := by
  simp only [open_writable] at h
  split at h
  · cases h
    exact List.Pairwise.nil
  · split at h
    · next st0 heq =>
      cases h
      have : SpansWF (⟨file, 0, [], 0, true⟩ : MStore).spans :=
        List.Pairwise.nil
      have h2 := read_newfile_wf crc _ is_write_compatible this
      rw [heq] at h2
      exact h2
    · cases h

theorem open_readonly_wf {crc : List Nat → Nat} {file : File} {st : MStore}
    (h : open_readonly crc file = .ok st) : SpansWF st.spans := by
  simp only [open_readonly] at h
  split at h
  · next st0 heq =>
    cases h
    have : SpansWF (⟨file, 0, [], 0, false⟩ : MStore).spans :=
      List.Pairwise.nil
    have h2 := read_newfile_wf crc _ is_read_compatible this
    rw [heq] at h2
    exact h2
  · cases h

theorem storeRead_spans (crc : List Nat → Nat) (st : MStore) (off n : Nat) :
    (storeRead crc st off n).1.spans
      = (validate_range crc st (prev_offset st.spans off) (off + n)).1.spans := by
  simp only [storeRead]
  split
  · rfl
  · split
    · split
      · split
        · split
          · rfl
          · rfl
        · rfl
      · split
        · rfl
        · rfl
    · split
      · rfl
      · rfl

theorem writeChunks_wf (crc : List Nat → Nat) (fuel : Nat) :
    ∀ (s0 : MStore) (off : Nat) (buf : List Nat), SpansWF s0.spans →
      SpansWF (writeChunks crc fuel s0 off buf).spans := by
  induction fuel with
  | zero =>
    intro s0 off buf h
    cases buf with
    | nil => exact h
    | cons b bs => exact h
  | succ n ih =>
    intro s0 off buf h
    cases buf with
    | nil => exact h
    | cons b bs =>
      simp only [writeChunks]
      exact ih _ _ _ (add_record_wf h)

theorem storeWrite_spans_wf {crc : List Nat → Nat} {st : MStore}
    {off : Nat} {buf : List Nat} (hwf : SpansWF st.spans) :
    SpansWF (storeWrite crc st off buf).1.spans := by
  simp only [storeWrite]
  split
  · exact validate_range_wf hwf
  · exact writeChunks_wf crc _ _ _ _ (validate_range_wf hwf)

theorem into_readonly_spans_wf {crc : List Nat → Nat} {st : MStore}
    (hwf : SpansWF st.spans) :
    SpansWF (into_readonly crc st).1.spans := by
  simp only [into_readonly]
  split
  · exact validate_range_wf hwf
  · exact validate_range_wf hwf

theorem reachable_wf {st : MStore} (h : ReachableStore st) :
    SpansWF st.spans := by
  induction h with
  | openedW crc file st hopen => exact open_writable_wf hopen
  | openedR crc file st hopen => exact open_readonly_wf hopen
  | stepRead crc st off n _ ih =>
    rw [storeRead_spans]
    exact validate_range_wf ih
  | stepWrite crc st off buf _ _ ih => exact storeWrite_spans_wf ih
  | stepIntoRO crc st _ _ ih => exact into_readonly_spans_wf ih

theorem flip_mem_key_len (ks : List Nat) {l : Spans} {p : Nat × Span}
    (hp : p ∈ l) :
    ∃ q ∈ flipValidated l ks, q.1 = p.1 ∧ q.2.len = p.2.len := by
  refine ⟨_, List.mem_map_of_mem _ hp, ?_, ?_⟩
  · exact flipFun_fst ks p
  · exact flipFun_len ks p

/-- C7.  On any reachable store, after the validate_range call that opens a
write (validating every unvalidated span keyed in
[prev_offset(offset), offset + buf.len())) has succeeded, every span that
the subsequent add_record calls would split is validated, so the
assert!(span.validated) in split_span never fires: all the split assertions
performed by the chunk loop hold.  Replay inserts spans with
validated = true only, which is why freshly opened stores qualify. -/
theorem c7_split_asserts_hold (crc : List Nat → Nat) (st : MStore)
    (hr : ReachableStore st) (hw : st.writable = true) (off : Nat)
    (buf : List Nat) (st1 : MStore)
    (hv : validate_range crc st (prev_offset st.spans off)
            (off + buf.length) = (st1, none)) :
    writeChunksAssertOk crc (buf.length + 1) st1 off buf = true := by
  have hwf : SpansWF st.spans := reachable_wf hr
  have hsp := validate_range_ok_spans hw hv
  have hwf1 : SpansWF st1.spans := by
    rw [hsp]; exact flipValidated_wf hwf
  have hpost := validate_range_post hw hv
  apply writeChunksAssertOk_true crc (buf.length + 1) st1 off buf hwf1
  intro p hp hpb hpov
  rcases le_or_lt (prev_offset st.spans off) p.1 with hge | hlt
  · exact hpost p hp hge hpb
  · exfalso
    cases hpe : prevEntry st.spans off with
    | none =>
      simp only [prev_offset, hpe] at hlt
      omega
    | some ks0 =>
      obtain ⟨k, sp⟩ := ks0
      simp only [prev_offset, hpe] at hlt
      obtain ⟨hkm, hkoff⟩ := prevEntry_mem hpe
      obtain ⟨q, hq1, hqk, hql⟩ := flip_mem_key_len
        ((((rangeEntries st.spans (prev_offset st.spans off)
          (off + buf.length)).filter (fun p => !p.2.validated)).map
            (fun p => (p.1, p.2.file_data_offset, p.2.len))).map
              (fun t => t.1)) hkm
      rw [← hsp] at hq1
      have hrel : p.1 + p.2.len ≤ q.1 :=
        wf_rel_of_mem hwf1 hp hq1 (by omega)
      omega

theorem chunkOf_length (buf : List Nat) :
    (chunkOf buf).length = min buf.length MAX_RECORD_SIZE := by
  rw [chunkOf, List.length_take]
  omega

theorem writeChunks_size (crc : List Nat → Nat) (fuel : Nat) :
    ∀ (s0 : MStore) (off : Nat) (buf : List Nat),
      SpansWF s0.spans → AllPos s0.spans →
      spansSize s0.spans ≤ spansSize (writeChunks crc fuel s0 off buf).spans := by
  induction fuel with
  | zero =>
    intro s0 off buf _ _
    cases buf with
    | nil => exact le_refl _
    | cons b bs => exact le_refl _
  | succ n ih =>
    intro s0 off buf h hpos
    cases buf with
    | nil => exact le_refl _
    | cons b bs =>
      have hM : 0 < MAX_RECORD_SIZE := by decide
      have hcp : 0 < (chunkOf (b :: bs)).length := by
        rw [chunkOf_length]
        have : 0 < (b :: bs).length := by simp
        omega
      simp only [writeChunks]
      refine le_trans
        (@spansSize_le_add_record s0.spans off (chunkOf (b :: bs)).length
          ((write_record crc s0.file s0.cursor off (chunkOf (b :: bs))
            s0.file_size).2.2.1) false h hpos hcp) ?_
      exact ih
        { s0 with
          file := (write_record crc s0.file s0.cursor off (chunkOf (b :: bs))
            s0.file_size).1,
          cursor := (write_record crc s0.file s0.cursor off (chunkOf (b :: bs))
            s0.file_size).2.1,
          file_size := (write_record crc s0.file s0.cursor off
            (chunkOf (b :: bs)) s0.file_size).2.2.2,
          spans := add_record s0.spans off (chunkOf (b :: bs)).length
            (write_record crc s0.file s0.cursor off (chunkOf (b :: bs))
              s0.file_size).2.2.1 false }
        (off + (chunkOf (b :: bs)).length)
        ((b :: bs).drop (chunkOf (b :: bs)).length)
        (add_record_wf h) (allPos_add_record h hpos hcp)

/-- Witness for C7 at a fresh store and a concrete two-byte write. -/
theorem c7_witness :
    writeChunksAssertOk crc0 3 fresh0 0 [1, 2] = true :=
  c7_split_asserts_hold crc0 fresh0
    (ReachableStore.openedW crc0 [] fresh0 rfl) rfl 0 [1, 2] fresh0 rfl

/-- C9.  On a writable store whose span map satisfies the invariants (keys
strictly sorted, no overlap, no empty span), size() — the last span's key
plus its len, which the first conjunct shows bounds every span's end, i.e.
it is max(k + len) — does not decrease across any successful write call. -/
theorem c9_size_monotone (crc : List Nat → Nat) (st : MStore) (off : Nat)
    (buf : List Nat) (st' : MStore) (hw : st.writable = true)
    (hwf : SpansWF st.spans) (hpos : AllPos st.spans)
    (hok : storeWrite crc st off buf = (st', none)) :
    (∀ p ∈ st.spans, p.1 + p.2.len ≤ storeSize st) ∧
    storeSize st ≤ storeSize st' := by
  refine ⟨fun p hp => end_le_spansSize hwf hp, ?_⟩
  simp only [storeWrite] at hok
  split at hok
  · simp at hok
  · injection hok with h1 h2
    subst h1
    have hsz : spansSize (validate_range crc st (prev_offset st.spans off)
        (off + buf.length)).1.spans = spansSize st.spans := by
      rcases validate_range_spans_cases crc st (prev_offset st.spans off)
        (off + buf.length) with h | ⟨ks, h⟩
      · rw [h]
      · rw [h, flipValidated_spansSize]
    have hwfv : SpansWF (validate_range crc st (prev_offset st.spans off)
        (off + buf.length)).1.spans := validate_range_wf hwf
    have hposv : AllPos (validate_range crc st (prev_offset st.spans off)
        (off + buf.length)).1.spans := by
      rcases validate_range_spans_cases crc st (prev_offset st.spans off)
        (off + buf.length) with h | ⟨ks, h⟩
      · rw [h]; exact hpos
      · rw [h]; exact flipValidated_allPos hpos
    have := writeChunks_size crc (buf.length + 1) _ off buf hwfv hposv
    show spansSize st.spans ≤ spansSize _
    omega

/-- Witness for C9 at a fresh store and a concrete one-byte write. -/
theorem c9_witness :
    (∀ p ∈ fresh0.spans, p.1 + p.2.len ≤ storeSize fresh0) ∧
    storeSize fresh0 ≤ storeSize (storeWrite crc0 fresh0 0 [5]).1 :=
  c9_size_monotone crc0 fresh0 0 [5] (storeWrite crc0 fresh0 0 [5]).1 rfl
    List.Pairwise.nil (fun p hp => absurd hp (List.not_mem_nil p)) rfl

end Syncless
